import Mathlib

/-!
# rct `Hash<Key, Value>` (src/rct/Hash.h)

`Hash<Key, Value>` derives from `std::unordered_map<Key, Value>` and adds a layer of
convenience members.  The base table is embedded as the list of its entries in iteration
order (`begin()` up to `end()`); the members of `Hash` are translated one by one on top of
the few base operations they call.

Conventions of the embedding:

* a pointer out-parameter (`bool *ok`, `Value *value`, `int *count`) is an `Option`:
  `none` is the null pointer, `some x` is a pointer to a variable that currently holds `x`;
  the function returns the variable after the call;
* `int` is `Int`.  The counter behind `int *count` starts at a value the caller chooses, so
  `++*count` can overflow on small tables: it is embedded with the 32-bit wrap-around of the
  compiled code (`wrapInt`).  `size()` and the `ret` of `remove` count nodes of one table
  and are not wrapped;
* `Value()` is `default`; the test `a != b` on values is `Value`'s own `operator!=`, the
  `!=` of a `BEq Value` instance, which need not be the negation of identity (for `double`
  it holds between NaN and itself);
* a non-`const` member returns the receiver after the call next to its result.

Embedded members: `contains`, `isEmpty`, `size`, `value`, `deleteAll`, `take`, `remove`
(both overloads), `insert`, both `operator[]`, `unite`, `keys`, `keysAsSet` and `values`.
`subtract` (lines 144-152), and with it `operator-=` and the free `operator-`,
has no embedding: its body initialises a mutable `iterator` from `other.begin()` of a
`const` table and hands the whole node `*it`, a key-value pair, to the base `erase`, which
takes a key or an iterator, so the member template cannot be instantiated.
-/

namespace Rct

/-- The base table `std::unordered_map<Key, Value>`: its entries in iteration order. -/
structure Hash (Key Value : Type) where
  /-- The nodes of the table, from `begin()` to `end()`. -/
  entries : List (Key × Value)
deriving DecidableEq, Repr

namespace Hash

variable {Key Value : Type}

/-- The invariant of the base table: at most one entry per key. -/
def WF (m : Hash Key Value) : Prop :=
  (m.entries.map Prod.fst).Nodup

instance instDecidableWF [DecidableEq Key] (m : Hash Key Value) : Decidable m.WF :=
  inferInstanceAs (Decidable (m.entries.map Prod.fst).Nodup)

/-- Base `find(key)`: the node the returned iterator points at, `none` for the end iterator.
In the node-based tables `Hash` is built on, the end iterator of every table is the null
node, so the result is `none` exactly when the comparison with an `end()` holds. -/
def find [DecidableEq Key] (m : Hash Key Value) (key : Key) : Option (Key × Value) :=
  m.entries.find? (fun e => decide (e.1 = key))

/-- Base `erase(it)` for the iterator `it = find(key)`: that one node is unlinked, the other
nodes keep their relative order. -/
def eraseFound [DecidableEq Key] (m : Hash Key Value) (key : Key) : Hash Key Value :=
  ⟨m.entries.eraseP (fun e => decide (e.1 = key))⟩

/-- The statement `operator[](key) = val` on the base table, on its entry list: the node of
`key` gets the value `val`; when there is none, a node is created for `key` (here: at the
end of the iteration order, a position the standard leaves open) and assigned `val`. -/
def assignEntries [DecidableEq Key] : List (Key × Value) → Key → Value → List (Key × Value)
  | [], key, val => [(key, val)]
  | e :: es, key, val =>
    if e.1 = key then (e.1, val) :: es else e :: assignEntries es key val

/-- The statement `std::unordered_map<Key, Value>::operator[](key) = val`. -/
def assign [DecidableEq Key] (m : Hash Key Value) (key : Key) (val : Value) : Hash Key Value :=
  ⟨assignEntries m.entries key val⟩

/-- The value stored under `key`, that is `find(key)->second`, when `find(key)` is not the
end iterator. -/
def lookup [DecidableEq Key] (m : Hash Key Value) (key : Key) : Option Value :=
  (m.find key).map Prod.snd

/-- `bool contains(const Key &t) const` (lines 32-35). -/
def contains [DecidableEq Key] (m : Hash Key Value) (t : Key) : Bool :=
  (m.find t).isSome

/-- `int size() const` (lines 164-167). -/
def size (m : Hash Key Value) : Int :=
  (m.entries.length : Int)

/-- `List<Key> keys() const` (lines 179-188): the keys in iteration order. -/
def keys (m : Hash Key Value) : List Key :=
  m.entries.foldl (fun acc e => acc ++ [e.1]) []

/-- `Value value(const Key &key, const Value &defaultValue, bool *ok) const` (lines 42-53).
The member is `const` and only calls the `const` members `find` and `end`: the table
component of the result is the receiver. -/
def value [DecidableEq Key] (m : Hash Key Value) (key : Key) (defaultValue : Value)
    (ok : Option Bool) : Hash Key Value × Value × Option Bool :=
  match m.find key with
  | none => (m, defaultValue, ok.map (fun _ => false))
  | some it => (m, it.2, ok.map (fun _ => true))

/-- `bool remove(const Key &t, Value *value)` (lines 77-89). -/
def remove [DecidableEq Key] [Inhabited Value] (m : Hash Key Value) (t : Key)
    (value : Option Value) : Hash Key Value × Bool × Option Value :=
  match m.find t with
  | some it => (m.eraseFound t, true, value.map (fun _ => it.2))
  | none => (m, false, value.map (fun _ => default))

/-- `Value take(const Key &key, bool *ok)` (lines 65-75): `ret` starts as `Value()`, is
handed to `remove` by address and returned. -/
def take [DecidableEq Key] [Inhabited Value] (m : Hash Key Value) (key : Key)
    (ok : Option Bool) : Hash Key Value × Value × Option Bool :=
  let ret : Value := default
  let r := m.remove key (some ret)
  let ret := r.2.2.getD ret
  if r.2.1 then (r.1, ret, ok.map (fun _ => true)) else (r.1, ret, ok.map (fun _ => false))

/-- The loop of `int remove(std::function<bool(const Key &key)> match)` (lines 96-103).
`kept` holds the nodes before the iterator (visited, not erased), the list argument the
nodes from the iterator on; `erase(it++)` drops the current node and moves on. -/
def removeMatchLoop (matchFn : Key → Bool) (ret : Int) (kept : List (Key × Value)) :
    List (Key × Value) → Hash Key Value × Int
  | [] => (⟨kept⟩, ret)
  | e :: rest =>
    if matchFn e.1 then removeMatchLoop matchFn (ret + 1) kept rest
    else removeMatchLoop matchFn ret (kept ++ [e]) rest

/-- `int remove(std::function<bool(const Key &key)> match)` (lines 92-105), the overload of
`remove` that takes a predicate. -/
def removeMatch (m : Hash Key Value) (matchFn : Key → Bool) : Hash Key Value × Int :=
  removeMatchLoop matchFn 0 [] m.entries

/-- The `int` a 32-bit two's complement machine holds for the integer `x`: `x` itself
between `-2147483648` and `2147483647`, and `x` shifted by a multiple of `4294967296` into
that range otherwise. -/
def wrapInt (x : Int) : Int :=
  (x + 2147483648) % 4294967296 - 2147483648

/-- The counter after `n` executions of `++*count` (line 133), started at `c`. -/
def incrTimes : Nat → Int → Int
  | 0, c => c
  | n + 1, c => incrTimes n (wrapInt (c + 1))

/-- One pass of the loop body of `unite` (lines 128-139) at the node `e` of `other`; the
state is the receiver and the counter behind `count`.  `cur == end` compares the result of
`find` on the receiver with the end iterator of `other`; both are the null node when the
key is absent from the receiver (see `find`).  `cur->second != val` is `Value`'s `!=`;
`++*count` is the increment of an `int`, which wraps from `2147483647` to `-2147483648`. -/
def uniteStep [DecidableEq Key] [BEq Value] (st : Hash Key Value × Option Int)
    (e : Key × Value) : Hash Key Value × Option Int :=
  let key := e.1
  let val := e.2
  match st.2 with
  | some c =>
    match st.1.find key with
    | none => (st.1.assign key val, some (wrapInt (c + 1)))
    | some cur =>
      if (cur.2 != val) = true then (st.1.assign key val, some (wrapInt (c + 1))) else st
  | none => (st.1.assign key val, none)

/-- `Hash<Key, Value> &unite(const Hash<Key, Value> &other, int *count)` (lines 123-142):
the loop runs over the nodes of `other` in iteration order.  When `other` is the receiver
itself every key is found, no node is created, and the live iteration sees the same nodes
as the list taken at the start. -/
def unite [DecidableEq Key] [BEq Value] (m other : Hash Key Value)
    (count : Option Int) : Hash Key Value × Option Int :=
  other.entries.foldl uniteStep (m, count)

/-- The writes `operator[](e.first) = e.second` for the nodes `e` of `l`, in order. -/
def assignAll [DecidableEq Key] (m : Hash Key Value) (l : List (Key × Value)) :
    Hash Key Value :=
  l.foldl (fun t e => t.assign e.1 e.2) m

/-- The entry `e = (k, v)` is not yet an entry of `m`: `m` does not contain `k`, or maps `k`
to a value that is not equal to `v` by `Value`'s `!=`. -/
def differs [DecidableEq Key] [BEq Value] (m : Hash Key Value) (e : Key × Value) :
    Bool :=
  !(m.contains e.1) || (m.lookup e.1).any (fun w => w != e.2)

/-- `Hash()` (line 14): the empty table. -/
def empty : Hash Key Value :=
  ⟨[]⟩

/-- `bool isEmpty() const` (lines 37-40). -/
def isEmpty (m : Hash Key Value) : Bool :=
  decide (m.entries.length = 0)

/-- `bool insert(const Key &key, const Value &value)` (lines 107-110): the `second` of the
base `insert(std::make_pair(key, value))`, which creates a node only when the table has
none for `key` and reports whether it did. -/
def insert [DecidableEq Key] (m : Hash Key Value) (key : Key) (value : Value) :
    Hash Key Value × Bool :=
  match m.find key with
  | some _ => (m, false)
  | none => (⟨m.entries ++ [(key, value)]⟩, true)

/-- `Value &operator[](const Key &key)` (lines 112-115): the base `operator[]`, which
creates a node holding `Value()` when the table has none for `key`; the result is the
receiver after the call and the value the returned reference points at. -/
def subscript [DecidableEq Key] [Inhabited Value] (m : Hash Key Value) (key : Key) :
    Hash Key Value × Value :=
  match m.find key with
  | some it => (m, it.2)
  | none => (⟨m.entries ++ [(key, default)]⟩, default)

/-- `const Value &operator[](const Key &key) const` (lines 117-121): `none` is the failed
`assert(contains(key))`; past the assertion the result is `find(key)->second`, next to the
receiver, which the `const` member leaves as it is. -/
def subscriptConst [DecidableEq Key] (m : Hash Key Value) (key : Key) :
    Option (Hash Key Value × Value) :=
  if m.contains key = true then
    match m.find key with
    | some it => some (m, it.2)
    | none => none
  else none

/-- `void deleteAll()` (lines 55-63): the loop applies `delete` to `it->second` node by
node, then the table is cleared.  The second component lists the values `delete` was
applied to, in the order of the calls. -/
def deleteAll (m : Hash Key Value) : Hash Key Value × List Value :=
  (⟨[]⟩, m.entries.foldl (fun released it => released ++ [it.2]) [])

/-- `List<Value> values() const` (lines 201-210): the values in iteration order. -/
def values (m : Hash Key Value) : List Value :=
  m.entries.foldl (fun acc it => acc ++ [it.2]) []

/-- Modelled from the spec: `Set<T>::insert` of the collaborator `Set<T>`, whose header is
not among the sources ("supports `insert(T)`, deduplicates by T's equality, no order
guarantee").  A set is the list of its elements; an element that is already there is not
added again. -/
def setInsert [DecidableEq Key] (s : List Key) (x : Key) : List Key :=
  if x ∈ s then s else s ++ [x]

/-- `Set<Key> keysAsSet() const` (lines 190-199). -/
def keysAsSet [DecidableEq Key] (m : Hash Key Value) : List Key :=
  m.entries.foldl (fun acc it => setInsert acc it.1) []

/-- A call of one of the mutating members of `Hash`, with its arguments.  `subscript` is
the mutable `operator[]` read, `subscriptAssign` the statement `m[key] = val` that writes
through the reference it returns. -/
inductive Call (Key Value : Type) where
  | insert (key : Key) (value : Value)
  | subscript (key : Key)
  | subscriptAssign (key : Key) (val : Value)
  | remove (t : Key) (value : Option Value)
  | removeMatch (matchFn : Key → Bool)
  | take (key : Key) (ok : Option Bool)
  | unite (other : Hash Key Value) (count : Option Int)
  | deleteAll

/-- The receiver after the call `c`. -/
def applyCall [DecidableEq Key] [BEq Value] [Inhabited Value] (m : Hash Key Value) :
    Call Key Value → Hash Key Value
  | .insert key value => (m.insert key value).1
  | .subscript key => (m.subscript key).1
  | .subscriptAssign key val => m.assign key val
  | .remove t value => (m.remove t value).1
  | .removeMatch matchFn => (m.removeMatch matchFn).1
  | .take key ok => (m.take key ok).1
  | .unite other count => (m.unite other count).1
  | .deleteAll => m.deleteAll.1

/-- The table a program holds after it has built it with `Hash()` and made the calls of
`calls` on it, one after the other. -/
def runCalls [DecidableEq Key] [BEq Value] [Inhabited Value]
    (calls : List (Call Key Value)) : Hash Key Value :=
  calls.foldl applyCall empty

/-! ### Concrete tables -/

/-- The table `{"a":1, "b":2}`. -/
def sampleM : Hash String Int :=
  ⟨[("a", 1), ("b", 2)]⟩

/-- The table `{"b":5, "c":3}`. -/
def sampleOther : Hash String Int :=
  ⟨[("b", 5), ("c", 3)]⟩

/-- The table `{"c":3, "d":4}`, which shares no key with `sampleM`. -/
def sampleApart : Hash String Int :=
  ⟨[("c", 3), ("d", 4)]⟩

/-- A value type in the manner of `double`: numbers, and one value `nan` that its `==`
does not hold equal to anything, itself included. -/
inductive Dbl where
  | nan
  | num (n : Int)

/-- The `operator==` of `Dbl`; `a != b` is its negation, so `nan != nan` holds. -/
instance instBEqDbl : BEq Dbl :=
  ⟨fun a b =>
    match a, b with
    | .num x, .num y => decide (x = y)
    | _, _ => false⟩

theorem find_assign [DecidableEq Key] (m : Hash Key Value) (key : Key) (val : Value) (k : Key) :
    (m.assign key val).find k = if k = key then some (key, val) else m.find k := by
  obtain ⟨l⟩ := m
  simp only [assign, find]
  induction l with
  | nil =>
    by_cases h : k = key
    · simp [assignEntries, h]
    · have h2 : ¬ key = k := fun h3 => h h3.symm
      simp [assignEntries, h, h2]
  | cons e es ih =>
    by_cases he : e.1 = key
    · by_cases h : k = key
      · simp [assignEntries, he, h]
      · have h2 : ¬ key = k := fun h3 => h h3.symm
        have h3 : ¬ e.1 = k := fun h4 => h (h4.symm.trans he)
        simp [assignEntries, he, h, h2, h3, List.find?_cons]
    · by_cases h : k = key
      · subst h
        simp [assignEntries, he, List.find?_cons] 
        simpa using ih
      · simp only [assignEntries, he, if_false, List.find?_cons]
        by_cases h3 : e.1 = k
        · simp [h3, h]
        · simp [h3, h]
          simpa [h] using ih

theorem find_fst [DecidableEq Key] {m : Hash Key Value} {k : Key} {e : Key × Value}
    (h : m.find k = some e) : e.1 = k := by
  have := List.find?_some h
  simpa using this

theorem find_mem [DecidableEq Key] {m : Hash Key Value} {k : Key} {e : Key × Value}
    (h : m.find k = some e) : e ∈ m.entries :=
  List.mem_of_find?_eq_some h

theorem find_of_mem [DecidableEq Key] {m : Hash Key Value} (h : m.WF) {e : Key × Value}
    (he : e ∈ m.entries) : m.find e.1 = some e := by
  obtain ⟨l⟩ := m
  simp only [WF] at h
  simp only [find]
  induction l with
  | nil => simp at he
  | cons a as ih =>
    simp only [List.map_cons, List.nodup_cons, List.mem_map, not_exists, not_and] at h
    rcases List.mem_cons.1 he with rfl | hmem
    · simp
    · have hne : ¬ a.1 = e.1 := fun h2 => h.1 e hmem h2.symm
      simp only [List.find?_cons, hne, decide_False]
      exact ih h.2 hmem

/-! ## The loop of `unite` -/

theorem uniteStep_none [DecidableEq Key] [BEq Value] (t : Hash Key Value)
    (e : Key × Value) : uniteStep (t, none) e = (t.assign e.1 e.2, none) := rfl

theorem uniteStep_some [DecidableEq Key] [BEq Value] (t : Hash Key Value) (c : Int)
    (e : Key × Value) :
    uniteStep (t, some c) e
      = if t.differs e = true then (t.assign e.1 e.2, some (wrapInt (c + 1)))
        else (t, some c) := by
  unfold uniteStep differs contains lookup
  dsimp only
  split
  · rename_i hf
    simp [hf]
  · rename_i cur hf
    by_cases hv : (cur.2 != e.2) = true <;> simp [hf, hv]

theorem wrapInt_of_fits (x : Int) (hlo : -2147483648 ≤ x) (hhi : x ≤ 2147483647) :
    wrapInt x = x := by
  unfold wrapInt
  omega

theorem incrTimes_of_fits (n : Nat) (c : Int) (hlo : -2147483648 ≤ c)
    (hhi : c + (n : Int) ≤ 2147483647) : incrTimes n c = c + (n : Int) := by
  induction n generalizing c with
  | zero => simp [incrTimes]
  | succ k ih =>
    have hw : wrapInt (c + 1) = c + 1 := wrapInt_of_fits (c + 1) (by omega) (by omega)
    rw [incrTimes, hw, ih (c + 1) (by omega) (by omega)]
    push_cast
    omega

theorem foldl_uniteStep_none [DecidableEq Key] [BEq Value]
    (l : List (Key × Value)) (t : Hash Key Value) :
    l.foldl uniteStep (t, none) = (t.assignAll l, none) := by
  induction l generalizing t with
  | nil => rfl
  | cons e es ih => simp only [List.foldl_cons, uniteStep_none, ih, assignAll]

theorem differs_assign [DecidableEq Key] [BEq Value] (t : Hash Key Value)
    (key : Key) (val : Value) (e : Key × Value) (h : e.1 ≠ key) :
    (t.assign key val).differs e = t.differs e := by
  simp only [differs, contains, lookup, find_assign, if_neg h]

theorem foldl_uniteStep_some [DecidableEq Key] [BEq Value]
    (l : List (Key × Value)) (hl : (l.map Prod.fst).Nodup) (t : Hash Key Value) (c : Int) :
    l.foldl uniteStep (t, some c)
      = (t.assignAll (l.filter t.differs), some (incrTimes (l.filter t.differs).length c)) := by
  induction l generalizing t c with
  | nil => simp [assignAll, incrTimes]
  | cons e es ih =>
    simp only [List.map_cons, List.nodup_cons, List.mem_map, not_exists, not_and] at hl
    rw [List.foldl_cons, uniteStep_some]
    by_cases hd : t.differs e = true
    · have hcongr : es.filter (t.assign e.1 e.2).differs = es.filter t.differs := by
        apply List.filter_congr
        intro x hx
        exact differs_assign t e.1 e.2 x (fun h => hl.1 x hx h)
      rw [if_pos hd, ih hl.2, hcongr, List.filter_cons_of_pos hd]
      simp only [assignAll, List.foldl_cons, List.length_cons, incrTimes]
    · rw [if_neg hd, ih hl.2, List.filter_cons_of_neg hd]

theorem find_assignAll [DecidableEq Key] (l : List (Key × Value))
    (hl : (l.map Prod.fst).Nodup) (t : Hash Key Value) (k : Key) :
    (t.assignAll l).find k
      = match l.find? (fun e => decide (e.1 = k)) with
        | some e => some e
        | none => t.find k := by
  induction l generalizing t with
  | nil => rfl
  | cons e es ih =>
    simp only [List.map_cons, List.nodup_cons, List.mem_map, not_exists, not_and] at hl
    simp only [assignAll, List.foldl_cons]
    have ih2 := ih hl.2 (t.assign e.1 e.2)
    simp only [assignAll] at ih2
    rw [ih2]
    by_cases hk : e.1 = k
    · have hnone : es.find? (fun x => decide (x.1 = k)) = none := by
        rw [List.find?_eq_none]
        intro x hx
        simp only [decide_eq_true_eq]
        intro hxk
        exact hl.1 x hx (hxk.trans hk.symm)
      simp only [hnone, List.find?_cons, hk, decide_True, find_assign]
      subst hk
      simp
    · have hk2 : ¬ k = e.1 := fun h => hk h.symm
      simp only [List.find?_cons, hk, decide_False, find_assign, if_neg hk2]

theorem size_assign [DecidableEq Key] (t : Hash Key Value) (key : Key) (val : Value) :
    (t.assign key val).size = if t.contains key = true then t.size else t.size + 1 := by
  obtain ⟨l⟩ := t
  simp only [assign, size, contains, find]
  induction l with
  | nil => simp [assignEntries]
  | cons e es ih =>
    by_cases he : e.1 = key
    · simp [assignEntries, he]
    · simp only [assignEntries, he, if_false, List.length_cons, List.find?_cons, decide_False]
      by_cases hc : (es.find? (fun x => decide (x.1 = key))).isSome = true
      · rw [if_pos hc] at ih ⊢
        push_cast at ih ⊢
        omega
      · rw [if_neg hc] at ih ⊢
        push_cast at ih ⊢
        omega

theorem find_unite_none [DecidableEq Key] [BEq Value] (m other : Hash Key Value)
    (hother : other.WF) (k : Key) :
    (m.unite other none).1.find k
      = match other.find k with
        | some e => some e
        | none => m.find k := by
  simp only [unite, foldl_uniteStep_none]
  exact find_assignAll other.entries hother m k

theorem size_assignAll_absent [DecidableEq Key] (l : List (Key × Value))
    (hl : (l.map Prod.fst).Nodup) (t : Hash Key Value)
    (habs : ∀ e ∈ l, t.contains e.1 = false) :
    (t.assignAll l).size = t.size + (l.length : Int) := by
  induction l generalizing t with
  | nil => simp [assignAll]
  | cons e es ih =>
    simp only [List.map_cons, List.nodup_cons, List.mem_map, not_exists, not_and] at hl
    have hrest : ∀ x ∈ es, (t.assign e.1 e.2).contains x.1 = false := by
      intro x hx
      have hne : ¬ x.1 = e.1 := fun h => hl.1 x hx h
      have := habs x (List.mem_cons_of_mem _ hx)
      simpa only [contains, find_assign, if_neg hne] using this
    have h1 := ih hl.2 (t.assign e.1 e.2) hrest
    have h2 := size_assign t e.1 e.2
    rw [habs e (List.mem_cons_self _ _)] at h2
    simp only [assignAll, List.foldl_cons, List.length_cons] at h1 ⊢
    rw [h1, h2]
    push_cast
    omega

/-! ## `keys`, `remove` and `take` -/

theorem keys_eq_map (m : Hash Key Value) : m.keys = m.entries.map Prod.fst := by
  have h : ∀ (l : List (Key × Value)) (acc : List Key),
      l.foldl (fun acc e => acc ++ [e.1]) acc = acc ++ l.map Prod.fst := by
    intro l
    induction l with
    | nil => simp
    | cons e es ih =>
      intro acc
      simp [ih]
  simpa [keys] using h m.entries []

theorem removeMatchLoop_eq (matchFn : Key → Bool) (ret : Int) (kept l : List (Key × Value)) :
    removeMatchLoop matchFn ret kept l
      = (⟨kept ++ l.filter (fun e => !matchFn e.1)⟩,
          ret + ((l.filter (fun e => matchFn e.1)).length : Int)) := by
  induction l generalizing ret kept with
  | nil => simp [removeMatchLoop]
  | cons e es ih =>
    by_cases he : matchFn e.1 = true
    · simp only [removeMatchLoop, he, if_true, ih, List.filter_cons, Bool.not_true,
        List.length_cons]
      simp only [Bool.false_eq_true, if_false, Prod.mk.injEq, true_and]
      push_cast
      omega
    · simp only [removeMatchLoop, he, if_false, ih, List.filter_cons]
      simp only [Bool.not_eq_true] at he
      simp [he]

theorem find_filter_keys [DecidableEq Key] (l : List (Key × Value)) (q : Key → Bool) (k : Key)
    (hk : q k = true) :
    (l.filter (fun e => q e.1)).find? (fun e => decide (e.1 = k))
      = l.find? (fun e => decide (e.1 = k)) := by
  induction l with
  | nil => rfl
  | cons e es ih =>
    by_cases he : e.1 = k
    · subst he
      simp [List.filter_cons, hk]
    · by_cases hq : q e.1 = true
      · simp [List.filter_cons, hq, he, ih]
      · simp [List.filter_cons, hq, he, ih]

theorem find_eraseFound_self [DecidableEq Key] (m : Hash Key Value) (h : m.WF) (k : Key) :
    (m.eraseFound k).find k = none := by
  obtain ⟨l⟩ := m
  simp only [WF] at h
  simp only [eraseFound, find]
  induction l with
  | nil => simp
  | cons e es ih =>
    simp only [List.map_cons, List.nodup_cons, List.mem_map, not_exists, not_and] at h
    by_cases he : e.1 = k
    · simp only [List.eraseP_cons, he, decide_True, cond_true]
      rw [List.find?_eq_none]
      intro x hx
      simp only [decide_eq_true_eq]
      intro hxk
      exact h.1 x hx (hxk.trans he.symm)
    · simp only [List.eraseP_cons, he, decide_False, cond_false, List.find?_cons]
      exact ih h.2

theorem size_eraseFound [DecidableEq Key] (m : Hash Key Value) (k : Key)
    (hk : m.contains k = true) : (m.eraseFound k).size = m.size - 1 := by
  simp only [contains, Option.isSome_iff_exists] at hk
  obtain ⟨e, he⟩ := hk
  have hmem := find_mem he
  have hfst := find_fst he
  have hlen : (m.entries.eraseP (fun x => decide (x.1 = k))).length = m.entries.length - 1 :=
    List.length_eraseP_of_mem hmem (by simp [hfst])
  have hpos : 0 < m.entries.length := List.length_pos_of_mem hmem
  simp only [eraseFound, size, hlen]
  omega

theorem sample_no_shared_key (k : String) (h : sampleM.contains k = true) :
    sampleApart.contains k = false := by
  simp only [contains, find, sampleM, sampleApart, List.find?_cons, List.find?_nil] at h ⊢
  by_cases ha : "a" = k
  · subst ha
    decide
  · by_cases hb : "b" = k
    · subst hb
      decide
    · simp [ha, hb] at h

/-! ## `erase`, `insert`, the views and the invariant -/

theorem find_eraseFound_ne [DecidableEq Key] (m : Hash Key Value) (k k' : Key) (h : k' ≠ k) :
    (m.eraseFound k).find k' = m.find k' := by
  obtain ⟨l⟩ := m
  simp only [eraseFound, find]
  induction l with
  | nil => simp
  | cons e es ih =>
    by_cases he : e.1 = k
    · have hne : ¬ e.1 = k' := fun h2 => h (h2.symm.trans he)
      have hd : decide (e.1 = k) = true := decide_eq_true he
      have hd2 : decide (e.1 = k') = false := decide_eq_false hne
      simp only [List.eraseP_cons, List.find?_cons, hd, hd2, cond_true]
    · have hd : decide (e.1 = k) = false := decide_eq_false he
      by_cases he2 : e.1 = k'
      · have hd2 : decide (e.1 = k') = true := decide_eq_true he2
        simp only [List.eraseP_cons, List.find?_cons, hd, hd2, cond_false]
      · have hd2 : decide (e.1 = k') = false := decide_eq_false he2
        simp only [List.eraseP_cons, List.find?_cons, hd, hd2, cond_false]
        exact ih

theorem find_append_absent [DecidableEq Key] (l : List (Key × Value)) (key : Key)
    (val : Value) (habs : l.find? (fun e => decide (e.1 = key)) = none) (k : Key) :
    (l ++ [(key, val)]).find? (fun e => decide (e.1 = k))
      = if k = key then some (key, val) else l.find? (fun e => decide (e.1 = k)) := by
  by_cases hk : k = key
  · subst hk
    simp [List.find?_append, habs]
  · have hk2 : ¬ key = k := fun h => hk h.symm
    simp [List.find?_append, hk, hk2]

theorem values_eq_map (m : Hash Key Value) : m.values = m.entries.map Prod.snd := by
  have h : ∀ (l : List (Key × Value)) (acc : List Value),
      l.foldl (fun acc it => acc ++ [it.2]) acc = acc ++ l.map Prod.snd := by
    intro l
    induction l with
    | nil => simp
    | cons e es ih =>
      intro acc
      simp [ih]
  simpa [values] using h m.entries []

theorem contains_iff_mem_keys [DecidableEq Key] (m : Hash Key Value) (k : Key) :
    m.contains k = true ↔ k ∈ m.keys := by
  simp only [contains, find, keys_eq_map, List.find?_isSome, List.mem_map, decide_eq_true_eq]

theorem foldl_setInsert_of_nodup [DecidableEq Key] (l : List (Key × Value)) (acc : List Key)
    (h : (acc ++ l.map Prod.fst).Nodup) :
    l.foldl (fun s it => setInsert s it.1) acc = acc ++ l.map Prod.fst := by
  induction l generalizing acc with
  | nil => simp
  | cons e es ih =>
    have hnot : e.1 ∉ acc := by
      intro hmem
      have := List.nodup_append.1 h
      exact this.2.2 hmem (by simp)
    have h2 : ((acc ++ [e.1]) ++ es.map Prod.fst).Nodup := by
      simpa [List.append_assoc] using h
    have hstep : setInsert acc e.1 = acc ++ [e.1] := by simp only [setInsert, if_neg hnot]
    rw [List.foldl_cons, hstep, ih (acc ++ [e.1]) h2]
    simp [List.append_assoc]

theorem foldl_setInsert_nodup [DecidableEq Key] (l : List (Key × Value)) (acc : List Key)
    (h : acc.Nodup) : (l.foldl (fun s it => setInsert s it.1) acc).Nodup := by
  induction l generalizing acc with
  | nil => simpa using h
  | cons e es ih =>
    simp only [List.foldl_cons]
    apply ih
    by_cases hmem : e.1 ∈ acc
    · simpa [setInsert, hmem] using h
    · simp only [setInsert, if_neg hmem]
      rw [List.nodup_append]
      refine ⟨h, by simp, ?_⟩
      intro a ha hb
      simp only [List.mem_singleton] at hb
      exact hmem (hb ▸ ha)

theorem mem_foldl_setInsert [DecidableEq Key] (l : List (Key × Value)) (acc : List Key)
    (x : Key) :
    x ∈ l.foldl (fun s it => setInsert s it.1) acc ↔ x ∈ acc ∨ x ∈ l.map Prod.fst := by
  induction l generalizing acc with
  | nil => simp
  | cons e es ih =>
    simp only [List.foldl_cons, ih, List.map_cons, List.mem_cons]
    by_cases hmem : e.1 ∈ acc
    · simp only [setInsert, if_pos hmem]
      constructor
      · rintro (h | h)
        · exact Or.inl h
        · exact Or.inr (Or.inr h)
      · rintro (h | h | h)
        · exact Or.inl h
        · exact Or.inl (h ▸ hmem)
        · exact Or.inr h
    · simp only [setInsert, if_neg hmem, List.mem_append, List.mem_singleton]
      tauto

theorem WF_empty : (empty : Hash Key Value).WF := by
  simp [WF, empty]

theorem WF_append_absent [DecidableEq Key] (m : Hash Key Value) (key : Key) (val : Value)
    (hwf : m.WF) (habs : m.find key = none) :
    (⟨m.entries ++ [(key, val)]⟩ : Hash Key Value).WF := by
  simp only [WF, List.map_append, List.map_cons, List.map_nil] at hwf ⊢
  rw [List.nodup_append]
  refine ⟨hwf, by simp, ?_⟩
  intro a ha hb
  simp only [List.mem_singleton] at hb
  subst hb
  obtain ⟨e, he, hfst⟩ := List.mem_map.1 ha
  have hnone := List.find?_eq_none.1 habs e he
  simp [hfst] at hnone

theorem mem_keys_assignEntries [DecidableEq Key] (l : List (Key × Value)) (key : Key)
    (val : Value) (x : Key) (hx : x ∈ (assignEntries l key val).map Prod.fst) :
    x ∈ l.map Prod.fst ∨ x = key := by
  induction l with
  | nil =>
    simp only [assignEntries, List.map_cons, List.map_nil, List.mem_singleton] at hx
    exact Or.inr hx
  | cons e es ih =>
    by_cases he : e.1 = key
    · simp only [assignEntries, if_pos he, List.map_cons] at hx
      exact Or.inl (by simpa using hx)
    · simp only [assignEntries, if_neg he, List.map_cons, List.mem_cons] at hx
      rcases hx with hx | hx
      · exact Or.inl (by simp [hx])
      · rcases ih hx with h | h
        · exact Or.inl (by simp only [List.map_cons, List.mem_cons]; exact Or.inr h)
        · exact Or.inr h

theorem WF_assign [DecidableEq Key] (m : Hash Key Value) (key : Key) (val : Value)
    (hwf : m.WF) : (m.assign key val).WF := by
  obtain ⟨l⟩ := m
  simp only [WF, assign] at hwf ⊢
  induction l with
  | nil => simp [assignEntries]
  | cons e es ih =>
    simp only [List.map_cons, List.nodup_cons] at hwf
    by_cases he : e.1 = key
    · simp only [assignEntries, if_pos he, List.map_cons, List.nodup_cons]
      exact hwf
    · simp only [assignEntries, if_neg he, List.map_cons, List.nodup_cons]
      refine ⟨?_, ih hwf.2⟩
      intro hmem
      rcases mem_keys_assignEntries es key val e.1 hmem with h | h
      · exact hwf.1 h
      · exact he h

theorem WF_eraseFound [DecidableEq Key] (m : Hash Key Value) (key : Key) (hwf : m.WF) :
    (m.eraseFound key).WF := by
  simp only [WF, eraseFound] at hwf ⊢
  exact hwf.sublist ((List.eraseP_sublist m.entries).map Prod.fst)

theorem WF_insert [DecidableEq Key] (m : Hash Key Value) (key : Key) (val : Value)
    (hwf : m.WF) : (m.insert key val).1.WF := by
  cases hf : m.find key with
  | none =>
    simp only [insert, hf]
    exact WF_append_absent m key val hwf hf
  | some e =>
    simp only [insert, hf]
    exact hwf

theorem WF_subscript [DecidableEq Key] [Inhabited Value] (m : Hash Key Value) (key : Key)
    (hwf : m.WF) : (m.subscript key).1.WF := by
  cases hf : m.find key with
  | none =>
    simp only [subscript, hf]
    exact WF_append_absent m key default hwf hf
  | some e =>
    simp only [subscript, hf]
    exact hwf

theorem WF_remove [DecidableEq Key] [Inhabited Value] (m : Hash Key Value) (t : Key)
    (value : Option Value) (hwf : m.WF) : (m.remove t value).1.WF := by
  cases hf : m.find t with
  | none =>
    simp only [remove, hf]
    exact hwf
  | some e =>
    simp only [remove, hf]
    exact WF_eraseFound m t hwf

theorem WF_take [DecidableEq Key] [Inhabited Value] (m : Hash Key Value) (key : Key)
    (ok : Option Bool) (hwf : m.WF) : (m.take key ok).1.WF := by
  have h := WF_remove m key (some default) hwf
  simp only [take]
  split <;> exact h

theorem WF_removeMatch (m : Hash Key Value) (matchFn : Key → Bool) (hwf : m.WF) :
    (m.removeMatch matchFn).1.WF := by
  have hloop := removeMatchLoop_eq matchFn 0 [] m.entries
  simp only [List.nil_append] at hloop
  simp only [WF, removeMatch, hloop] at hwf ⊢
  exact hwf.sublist ((List.filter_sublist m.entries).map Prod.fst)

theorem WF_uniteStep [DecidableEq Key] [BEq Value] (st : Hash Key Value × Option Int)
    (e : Key × Value) (hwf : st.1.WF) : (uniteStep st e).1.WF := by
  obtain ⟨t, c⟩ := st
  cases c with
  | none =>
    rw [uniteStep_none]
    exact WF_assign t e.1 e.2 hwf
  | some c =>
    rw [uniteStep_some]
    split
    · exact WF_assign t e.1 e.2 hwf
    · exact hwf

theorem WF_unite [DecidableEq Key] [BEq Value] (m other : Hash Key Value)
    (count : Option Int) (hwf : m.WF) : (m.unite other count).1.WF := by
  have h : ∀ (l : List (Key × Value)) (st : Hash Key Value × Option Int),
      st.1.WF → (l.foldl uniteStep st).1.WF := by
    intro l
    induction l with
    | nil => exact fun _ h => h
    | cons e es ih => exact fun st h => ih _ (WF_uniteStep st e h)
  exact h other.entries (m, count) hwf

theorem WF_applyCall [DecidableEq Key] [BEq Value] [Inhabited Value]
    (m : Hash Key Value) (c : Call Key Value) (hwf : m.WF) : (m.applyCall c).WF := by
  cases c with
  | insert key value => exact WF_insert m key value hwf
  | subscript key => exact WF_subscript m key hwf
  | subscriptAssign key val => exact WF_assign m key val hwf
  | remove t value => exact WF_remove m t value hwf
  | removeMatch matchFn => exact WF_removeMatch m matchFn hwf
  | take key ok => exact WF_take m key ok hwf
  | unite other count => exact WF_unite m other count hwf
  | deleteAll => exact WF_empty

theorem WF_foldl_applyCall [DecidableEq Key] [BEq Value] [Inhabited Value]
    (calls : List (Call Key Value)) (m : Hash Key Value) (hwf : m.WF) :
    (calls.foldl applyCall m).WF := by
  induction calls generalizing m with
  | nil => exact hwf
  | cons c cs ih => exact ih _ (WF_applyCall m c hwf)

/-! ## The claims -/

/-- C1, amended: as long as the counter stays an `int` (it starts at an `int` value `c0`
and `c0 + N` does not exceed `2147483647`), `M.unite(other, &count)` ends with
`count == c0 + N`, where `N` is the number of entries `(k, v)` of `other` that `M` before
the call either does not contain or maps to a value that is `!=` `v`; the counter is added
to, not reset.  The entries of `other` that `M` already holds with an equal value are not
written: the resulting table is `M` after the writes of exactly the `N` differing
entries. -/
theorem unite_count_accumulates [DecidableEq Key] [BEq Value]
    (m other : Hash Key Value) (c0 : Int) (hother : other.WF)
    (hlo : -2147483648 ≤ c0)
    (hfit : c0 + ((other.entries.filter m.differs).length : Int) ≤ 2147483647) :
    (m.unite other (some c0)).2
        = some (c0 + ((other.entries.filter m.differs).length : Int)) ∧
      (m.unite other (some c0)).1 = m.assignAll (other.entries.filter m.differs) := by
  have h := foldl_uniteStep_some other.entries hother m c0
  rw [incrTimes_of_fits _ c0 hlo hfit] at h
  simp only [unite, h, and_self]

/-- Witness of C1 on `sampleM` and `sampleOther` with the counter at `7`: both entries of
`sampleOther` differ from `sampleM`, the counter ends at `9`. -/
theorem unite_count_accumulates_witness :
    sampleOther.WF ∧ (-2147483648 : Int) ≤ 7 ∧
      (7 : Int) + ((sampleOther.entries.filter sampleM.differs).length : Int) ≤ 2147483647 ∧
      (sampleM.unite sampleOther (some 7)).2 = some 9 :=
  ⟨by decide, by decide, by decide,
    (unite_count_accumulates sampleM sampleOther 7 (by decide) (by decide) (by decide)).1.trans
      (by decide)⟩

/-- C1 as stated, for every initial counter value, fails at `c0 = 2147483647`: both
entries of `sampleOther` differ from `sampleM`, so the claim asks for
`2147483647 + 2 = 2147483649`, while the two increments of the `int` leave
`-2147483647`. -/
theorem unite_count_wraps_at_int_max :
    sampleOther.WF ∧
      (sampleM.unite sampleOther (some 2147483647)).2 = some (-2147483647) ∧
      (sampleM.unite sampleOther (some 2147483647)).2
        ≠ some (2147483647 + ((sampleOther.entries.filter sampleM.differs).length : Int)) := by
  decide

/-- C2: after `M.unite(other)` without a counter, a key `k` of `other` is in `M` with the
value `other` has for it (`other` wins on collision); a key that `other` does not contain
is in `M` iff it was before, with its original value; so the keys of the result are the
union of the keys of both tables. -/
theorem unite_other_wins [DecidableEq Key] [DecidableEq Value]
    (m other : Hash Key Value) (k : Key) (hother : other.WF) :
    (m.unite other none).2 = none ∧
      (∀ v, other.lookup k = some v → (m.unite other none).1.lookup k = some v) ∧
      (other.contains k = true → (m.unite other none).1.contains k = true) ∧
      (other.contains k = false →
        (m.unite other none).1.contains k = m.contains k ∧
          (m.unite other none).1.lookup k = m.lookup k) ∧
      (m.unite other none).1.contains k = (m.contains k || other.contains k) := by
  have hf := find_unite_none m other hother k
  refine ⟨by simp only [unite, foldl_uniteStep_none], ?_⟩
  simp only [lookup, contains, hf]
  cases ho : other.find k with
  | none => simp
  | some e => simp

/-- Witness of C2 on `sampleM`, `sampleOther` and the shared key `"b"`. -/
theorem unite_other_wins_witness :
    sampleOther.WF ∧ sampleOther.lookup "b" = some 5 ∧
      (sampleM.unite sampleOther none).1.lookup "b" = some 5 :=
  ⟨by decide, by decide,
    (unite_other_wins sampleM sampleOther "b" (by decide)).2.1 5 (by decide)⟩

/-- C3, the `unite` step of the scenario (the `subtract` step has no embedding, see the
header): with `M` holding a:1, b:2, `other` holding b:5, c:3 and `count` initialised to `0`,
`M.unite(other, &count)` leaves `M` with exactly the entries a:1, b:5, c:3, one per key,
and `count == 2`. -/
theorem unite_scenario :
    (sampleM.unite sampleOther (some 0)).1.entries.Perm [("a", 1), ("b", 5), ("c", 3)] ∧
      (sampleM.unite sampleOther (some 0)).1.WF ∧
      (sampleM.unite sampleOther (some 0)).2 = some 2 := by
  decide

/-- C5: when `M` and `other` share no key and `count` starts at `0`, `M.unite(other, &count)`
ends with `count == other.size()` and `M.size() == originalSize + other.size()`.  The
counter is an `int`: it holds `other.size()` for every `other` whose size is an `int`, that
is, at most `2147483647`. -/
theorem unite_disjoint_count_size [DecidableEq Key] [DecidableEq Value]
    (m other : Hash Key Value) (hother : other.WF)
    (hdisj : ∀ k, m.contains k = true → other.contains k = false) :
    (other.size ≤ 2147483647 → (m.unite other (some 0)).2 = some other.size) ∧
      (m.unite other (some 0)).1.size = m.size + other.size := by
  have habs : ∀ e ∈ other.entries, m.contains e.1 = false := by
    intro e he
    cases hc : m.contains e.1 with
    | false => rfl
    | true =>
      have := hdisj e.1 hc
      simp [contains, find_of_mem hother he] at this
  have hall : other.entries.filter m.differs = other.entries := by
    rw [List.filter_eq_self]
    intro e he
    simp [differs, habs e he]
  have h := foldl_uniteStep_some other.entries hother m 0
  rw [hall] at h
  simp only [unite, h]
  refine ⟨?_, size_assignAll_absent other.entries hother m habs⟩
  intro hfit
  simp only [size] at hfit ⊢
  rw [incrTimes_of_fits _ 0 (by omega) (by omega)]
  simp

/-- Witness of C5 on `sampleM` and `sampleApart`, which share no key. -/
theorem unite_disjoint_count_size_witness :
    sampleApart.WF ∧ (∀ k, sampleM.contains k = true → sampleApart.contains k = false) ∧
      sampleApart.size ≤ 2147483647 ∧
      (sampleM.unite sampleApart (some 0)).2 = some 2 ∧
      (sampleM.unite sampleApart (some 0)).1.size = 2 + 2 :=
  have h := unite_disjoint_count_size sampleM sampleApart (by decide) sample_no_shared_key
  ⟨by decide, sample_no_shared_key, by decide, h.1 (by decide), h.2⟩

/-- C8: `M.remove(match)` returns the number of keys of `M` before the call that satisfy
`match`; afterwards no key left in `M` satisfies `match`, and every key that does not
satisfy it is contained as before, with its original value. -/
theorem removeMatch_count_and_frame [DecidableEq Key] (m : Hash Key Value)
    (matchFn : Key → Bool) :
    (m.removeMatch matchFn).2 = ((m.keys.filter matchFn).length : Int) ∧
      (∀ k ∈ (m.removeMatch matchFn).1.keys, matchFn k = false) ∧
      (∀ k, (m.removeMatch matchFn).1.contains k = true → matchFn k = false) ∧
      (∀ k, matchFn k = false →
        (m.removeMatch matchFn).1.contains k = m.contains k ∧
          (m.removeMatch matchFn).1.lookup k = m.lookup k) := by
  have hloop := removeMatchLoop_eq matchFn 0 [] m.entries
  simp only [List.nil_append, zero_add] at hloop
  have hkeys : ∀ k ∈ (m.removeMatch matchFn).1.keys, matchFn k = false := by
    intro k hk
    simp only [removeMatch, hloop, keys_eq_map, List.mem_map, List.mem_filter] at hk
    obtain ⟨e, ⟨_, he⟩, rfl⟩ := hk
    simpa using he
  refine ⟨?_, hkeys, ?_, ?_⟩
  · simp only [removeMatch, hloop, keys_eq_map, List.filter_map, List.length_map]
    rfl
  · intro k hk
    simp only [contains, Option.isSome_iff_exists] at hk
    obtain ⟨e, he⟩ := hk
    have h1 := find_fst he
    have h2 := find_mem he
    apply hkeys
    rw [keys_eq_map]
    exact List.mem_map.2 ⟨e, h2, h1⟩
  · intro k hk
    have hf : (m.removeMatch matchFn).1.find k = m.find k := by
      simp only [removeMatch, hloop, find]
      exact find_filter_keys m.entries (fun x => !matchFn x) k (by simp [hk])
    simp only [contains, lookup, hf, and_self]

/-- C9: `M.value(k, D, &ok)` returns the stored value of `k` and sets `ok` to `true` when
`M` contains `k`, returns `D` and sets `ok` to `false` when it does not; in both cases the
table after the call is `M` (same entries, hence same size and same `contains`). -/
theorem value_reads_without_change [DecidableEq Key] (m : Hash Key Value) (k : Key)
    (D : Value) (b : Bool) :
    (m.contains k = true →
        ∃ v, m.lookup k = some v ∧ m.value k D (some b) = (m, v, some true)) ∧
      (m.contains k = false → m.value k D (some b) = (m, D, some false)) ∧
      (m.value k D (some b)).1 = m := by
  simp only [contains, lookup, value]
  cases m.find k with
  | none => simp
  | some e => simp

/-- C10: for a key `k` that `M` maps to `v`, `M.take(k, &ok)` returns `v` and sets `ok` to
`true`; afterwards `M.contains(k)` is `false` and `M.size()` is smaller by exactly `1`. -/
theorem take_present [DecidableEq Key] [Inhabited Value] (m : Hash Key Value) (k : Key)
    (v : Value) (b : Bool) (hwf : m.WF) (hk : m.lookup k = some v) :
    (m.take k (some b)).2.1 = v ∧
      (m.take k (some b)).2.2 = some true ∧
      (m.take k (some b)).1.contains k = false ∧
      (m.take k (some b)).1.size = m.size - 1 := by
  unfold lookup at hk
  obtain ⟨e, he, hv⟩ := Option.map_eq_some.1 hk
  have hc : m.contains k = true := by simp [contains, he]
  have htake : m.take k (some b) = (m.eraseFound k, v, some true) := by
    simp [take, remove, he, hv]
  rw [htake]
  refine ⟨rfl, rfl, ?_, size_eraseFound m k hc⟩
  simp [contains, find_eraseFound_self m hwf k]

/-- Witness of C10 on `sampleM` and the key `"b"`, stored with the value `2`. -/
theorem take_present_witness :
    sampleM.WF ∧ sampleM.lookup "b" = some 2 ∧
      (sampleM.take "b" (some false)).2.1 = 2 ∧
      (sampleM.take "b" (some false)).2.2 = some true ∧
      (sampleM.take "b" (some false)).1.contains "b" = false ∧
      (sampleM.take "b" (some false)).1.size = sampleM.size - 1 :=
  ⟨by decide, by decide, take_present sampleM "b" 2 false (by decide) (by decide)⟩

/-- C11: for a key `k` that `M` maps to `v`, `M.remove(k, &out)` returns `true`, sets `out`
to `v` and removes exactly that one entry: afterwards `k` is absent, the size is smaller by
one, and every other key is contained iff it was before, with its original value. -/
theorem remove_present [DecidableEq Key] [Inhabited Value] (m : Hash Key Value) (k : Key)
    (v out : Value) (hwf : m.WF) (hk : m.lookup k = some v) :
    (m.remove k (some out)).2.1 = true ∧
      (m.remove k (some out)).2.2 = some v ∧
      (m.remove k (some out)).1.contains k = false ∧
      (m.remove k (some out)).1.size = m.size - 1 ∧
      (∀ k2, k2 ≠ k →
        (m.remove k (some out)).1.contains k2 = m.contains k2 ∧
          (m.remove k (some out)).1.lookup k2 = m.lookup k2) := by
  unfold lookup at hk
  obtain ⟨e, he, hv⟩ := Option.map_eq_some.1 hk
  have hc : m.contains k = true := by simp [contains, he]
  have hrem : m.remove k (some out) = (m.eraseFound k, true, some v) := by
    simp [remove, he, hv]
  rw [hrem]
  refine ⟨rfl, rfl, ?_, size_eraseFound m k hc, ?_⟩
  · simp [contains, find_eraseFound_self m hwf k]
  · intro k2 hk2
    simp only [contains, lookup, find_eraseFound_ne m k k2 hk2, and_self]

/-- Witness of C11 on `sampleM` and the key `"a"`, stored with the value `1`. -/
theorem remove_present_witness :
    sampleM.WF ∧ sampleM.lookup "a" = some 1 ∧
      (sampleM.remove "a" (some 0)).2.1 = true ∧
      (sampleM.remove "a" (some 0)).2.2 = some 1 ∧
      (sampleM.remove "a" (some 0)).1.contains "a" = false ∧
      (sampleM.remove "a" (some 0)).1.lookup "b" = some 2 :=
  have h := remove_present sampleM "a" 1 0 (by decide) (by decide)
  ⟨by decide, by decide, h.1, h.2.1, h.2.2.1, (h.2.2.2.2 "b" (by decide)).2.trans (by decide)⟩

/-- C12: for a key `k` absent from `M`, `M.remove(k, &out)` returns `false` and sets `out`
to `Value()`, `M.take(k, &ok)` returns `Value()` and sets `ok` to `false`, and both leave
`M` as it was.  For every `k`, `take(k, &ok)` returns the value `remove(k, &out)` writes to
`out`, with `ok` equal to what `remove` returns and the same resulting table. -/
theorem remove_take_absent [DecidableEq Key] [Inhabited Value] (m : Hash Key Value)
    (k : Key) (out : Value) (b : Bool) :
    (m.contains k = false →
        m.remove k (some out) = (m, false, some default) ∧
          m.take k (some b) = (m, default, some false)) ∧
      (∃ w, (m.remove k (some out)).2.2 = some w ∧
        m.take k (some b) = ((m.remove k (some out)).1, w, some (m.remove k (some out)).2.1)) := by
  simp only [contains, take, remove]
  cases m.find k with
  | none => simp
  | some e => simp

/-- C13: `M.insert(k, v)` returns `true` iff `M` did not contain `k`; when it returns `true`,
`M` afterwards maps `k` to `v`, its size has grown by one and the other keys are as before;
when it returns `false`, `M` is unchanged (the existing value of `k` is not overwritten). -/
theorem insert_never_overwrites [DecidableEq Key] (m : Hash Key Value) (k : Key)
    (v : Value) :
    ((m.insert k v).2 = true ↔ m.contains k = false) ∧
      ((m.insert k v).2 = true →
        (m.insert k v).1.lookup k = some v ∧
          (m.insert k v).1.size = m.size + 1 ∧
          (∀ k2, k2 ≠ k →
            (m.insert k v).1.contains k2 = m.contains k2 ∧
              (m.insert k v).1.lookup k2 = m.lookup k2)) ∧
      ((m.insert k v).2 = false → (m.insert k v).1 = m) := by
  cases hf : m.find k with
  | none =>
    have hins : m.insert k v = (⟨m.entries ++ [(k, v)]⟩, true) := by simp [insert, hf]
    have hfind : ∀ k2, (⟨m.entries ++ [(k, v)]⟩ : Hash Key Value).find k2
        = if k2 = k then some (k, v) else m.find k2 :=
      fun k2 => find_append_absent m.entries k v hf k2
    rw [hins]
    refine ⟨by simp [contains, hf], ?_, by simp⟩
    intro _
    refine ⟨by simp [lookup, hfind], by simp [size], ?_⟩
    intro k2 hk2
    simp [contains, lookup, hfind, hk2]
  | some e =>
    have hins : m.insert k v = (m, false) := by simp [insert, hf]
    rw [hins]
    simp [contains, hf]

/-- C14: `keys()`, `values()` and `keysAsSet()` each have as many elements as `M.size()`;
`keysAsSet()` has no duplicates and holds exactly the keys for which `M.contains` holds. -/
theorem views_have_size [DecidableEq Key] (m : Hash Key Value) (hwf : m.WF) :
    (m.keys.length : Int) = m.size ∧
      (m.values.length : Int) = m.size ∧
      (m.keysAsSet.length : Int) = m.size ∧
      m.keysAsSet.Nodup ∧
      (∀ k, k ∈ m.keysAsSet ↔ m.contains k = true) := by
  have hset : m.keysAsSet = m.entries.map Prod.fst := by
    have := foldl_setInsert_of_nodup m.entries [] (by simpa [WF] using hwf)
    simpa [keysAsSet] using this
  refine ⟨by simp [keys_eq_map, size], by simp [values_eq_map, size],
    by simp [hset, size], ?_, ?_⟩
  · exact foldl_setInsert_nodup m.entries [] List.nodup_nil
  · intro k
    rw [contains_iff_mem_keys, keys_eq_map, hset]

/-- Witness of C14 on `sampleM`. -/
theorem views_have_size_witness :
    sampleM.WF ∧ (sampleM.keysAsSet.length : Int) = sampleM.size ∧ sampleM.keysAsSet.Nodup :=
  have h := views_have_size sampleM (by decide)
  ⟨by decide, h.2.2.1, h.2.2.2.1⟩

/-- C15: the value sequence follows the key sequence and is not deduplicated: for every
index `i < M.size()`, both `keys()[i]` and `values()[i]` exist and `values()[i]` is the
value `M` stores for `keys()[i]`, which is also what `M.value(keys()[i])` returns. -/
theorem values_follow_keys [DecidableEq Key] (m : Hash Key Value) (D : Value)
    (ok : Option Bool) (hwf : m.WF) :
    ∀ i : Nat, (i : Int) < m.size →
      ∃ k v, m.keys[i]? = some k ∧ m.values[i]? = some v ∧
        m.lookup k = some v ∧ (m.value k D ok).2.1 = v := by
  intro i hi
  have hlt : i < m.entries.length := by
    simp only [size] at hi
    exact_mod_cast hi
  have hmem : m.entries[i] ∈ m.entries := List.getElem_mem _
  have hfind := find_of_mem hwf hmem
  refine ⟨m.entries[i].1, m.entries[i].2, ?_, ?_, ?_, ?_⟩
  · simp [keys_eq_map, List.getElem?_map, List.getElem?_eq_getElem hlt]
  · simp [values_eq_map, List.getElem?_map, List.getElem?_eq_getElem hlt]
  · simp [lookup, hfind]
  · simp [value, hfind]

/-- Witness of C15 on `sampleM` at the index `1`. -/
theorem values_follow_keys_witness :
    sampleM.WF ∧ ((1 : Nat) : Int) < sampleM.size ∧
      ∃ k v, sampleM.keys[1]? = some k ∧ sampleM.values[1]? = some v ∧
        sampleM.lookup k = some v ∧ (sampleM.value k 0 none).2.1 = v :=
  ⟨by decide, by decide, values_follow_keys sampleM 0 none (by decide) 1 (by decide)⟩

/-- C18: after `M.deleteAll()`, `M.size() == 0` and `isEmpty()` holds, and `delete` has been
applied once per entry: the sequence of released values is `M.values()` as it was before
the call, as long as `M.size()`. -/
theorem deleteAll_releases_each_value (m : Hash Key Value) :
    m.deleteAll.1.size = 0 ∧
      m.deleteAll.1.isEmpty = true ∧
      m.deleteAll.2 = m.values ∧
      (m.deleteAll.2.length : Int) = m.size := by
  refine ⟨rfl, rfl, rfl, ?_⟩
  show ((m.values).length : Int) = m.size
  simp [values_eq_map, size]

/-- C16: key uniqueness is an invariant: after `Hash()` and any sequence of calls of mutating
members (`insert`, mutable `operator[]` and a write through it, `remove(key)`,
`remove(predicate)`, `take`, `unite` with or without counter, `deleteAll`) the table has at
most one entry per key, `keys()` has no duplicate, and one more call keeps it so.
`subtract` cannot be instantiated (see the header), so no sequence of calls contains it. -/
theorem calls_keep_keys_unique [DecidableEq Key] [DecidableEq Value] [Inhabited Value]
    (calls : List (Call Key Value)) :
    (runCalls calls).WF ∧ (runCalls calls).keys.Nodup ∧
      (∀ c, ((runCalls calls).applyCall c).WF) := by
  have h : (runCalls calls).WF := WF_foldl_applyCall calls empty WF_empty
  refine ⟨h, ?_, fun c => WF_applyCall _ c h⟩
  rw [keys_eq_map]
  exact h

/-- C17, the part of the claim the code meets (`subtract`, which the claim lists among the
operations that return a result for every input, cannot be instantiated, see the header):
the read-only subscript `M[k]` fails (assertion) iff `M` does not contain `k`; when `M`
contains `k` it returns the stored value, which is what `M.value(k)` returns, and leaves
`M` as it is.  On an absent key, where the subscript fails, the other members that take a
key return normally: `value` gives the default, `remove` gives `false`, `take` gives
`Value()`, `insert` gives `true`. -/
theorem subscriptConst_fails_iff_absent [DecidableEq Key] [Inhabited Value]
    (m : Hash Key Value) (k : Key) (D v0 : Value) (ok : Option Bool) (out : Option Value) :
    (m.subscriptConst k = none ↔ m.contains k = false) ∧
      (m.contains k = true →
        ∃ v, m.lookup k = some v ∧ m.subscriptConst k = some (m, v) ∧
          (m.value k D ok).2.1 = v) ∧
      (m.contains k = false →
        (m.value k D ok).2.1 = D ∧ (m.remove k out).2.1 = false ∧
          (m.take k ok).2.1 = default ∧ (m.insert k v0).2 = true) := by
  cases hf : m.find k with
  | none => simp [subscriptConst, contains, lookup, value, remove, take, insert, hf]
  | some e => simp [subscriptConst, contains, lookup, value, remove, take, insert, hf]

end Hash

end Rct
